import Mathlib

/-!
# Verification of the paprika sync/purge engine

A shallow embedding of the sync/purge core of the `paprika` backup tool:
the incremental upsert decision (`shouldSaveRecipe`), the per-recipe
upsert (`UpsertRecipe`), the sequential outcome model of a sync run
(`SyncRun`), the per-directory mark-and-sweep purge decision (`purgeDir`),
the fileless-subtree pruner (`PruneFilelessSubtrees`), and the
RFC3339Nano timestamp marker round-trip (`formatRFC3339Nano`,
`readTimestampMarker`).

File contents are modelled by their decoded state, instants and Go
`time.Duration` values by integer nanosecond counts, and the filesystem
tree walked by the pruner by an inductive rose tree.
-/

namespace Paprika

/-- A remote-index entry: `paprika.RecipeItem` with fields `uid`, `hash`. -/
structure RecipeItem where
  uid : String
  hash : String
deriving DecidableEq, Repr

/-- A full recipe record: `paprika.Recipe`. The claims only inspect
`uid` and `hash`; `name` stands for the remaining payload fields. -/
structure Recipe where
  uid : String
  hash : String
  name : String
deriving DecidableEq, Repr

/-- The observable state of the local file at a recipe path, as seen by
`shouldSaveRecipe`: `os.Open` fails (`missing`), the JSON decode of the
extant file fails (`corrupt`), or the file decodes to a record
(`decoded`). -/
inductive RecipeFile where
  | missing
  | corrupt
  | decoded (r : Recipe)
deriving DecidableEq, Repr

/-- Embedding of `shouldSaveRecipe(path, hash, log)` (sync.go):
returns `(update, exists)`.  The file at `path` is abstracted by its
decoded state `file`; the decode into a `RecipeItem` reads the stored
record's `hash` field. -/
def shouldSaveRecipe (file : RecipeFile) (hash : String) : Bool × Bool :=
  match file with
  | .missing => (true, false)
  | .corrupt => (true, true)
  | .decoded r => if r.hash == hash then (false, true) else (true, true)

/-- Outcome of one `UpsertRecipe` call: the returned `(saved, err)` pair,
whether the full-record network fetch was performed, and the state of
the recipe file afterwards. -/
structure UpsertOutcome where
  saved : Bool
  err : Option String
  fetched : Bool
  fileAfter : RecipeFile
deriving DecidableEq, Repr

/-- Embedding of `SyncCMD.UpsertRecipe` (sync.go). `file` is the state
of the local file at the recipe path, `fetch` the outcome of
`c.Recipe(ctx, ref.UID)`, `writeOk` whether `saveAsJSON` succeeds.
The source consults `shouldSaveRecipe` first and returns `(false, nil)`
when no update is needed; otherwise it fetches, warns (only) on a hash
mismatch, hard-fails on a UID mismatch, and writes the fetched record. -/
def UpsertRecipe (file : RecipeFile) (ref : RecipeItem)
    (fetch : Except String Recipe) (writeOk : Bool) : UpsertOutcome :=
  match shouldSaveRecipe file ref.hash with
  | (false, _) => ⟨false, none, false, file⟩
  | (true, _) =>
    match fetch with
    | .error e => ⟨false, some e, true, file⟩
    | .ok recipe =>
      if recipe.uid ≠ ref.uid then
        ⟨false, some "fetched recipe UID does not match requested UID", true, file⟩
      else if writeOk then
        ⟨true, none, true, .decoded recipe⟩
      else
        ⟨false, some "failed to save recipe file", true, file⟩

/-- Result of the recipes branch of a run: the state of every recipe
file afterwards (indexed by UID), the number of full-record fetches
performed, whether any per-item error occurred, and how many recipes
were saved. -/
structure SyncPassResult where
  store : String → RecipeFile
  fetches : Nat
  hadErr : Bool
  saved : Nat

/-- Sequential model of the worker pool draining the recipes queue
(`SyncCMD.Run`, sync.go): every queued `RecipeItem` is processed by
`UpsertRecipe` exactly once; a per-item error flips the aggregate flag
but does not stop the remaining items.  `store` maps a UID to the state
of the file at its (UID-determined, hence per-item disjoint) path and
`fetch` gives the outcome of the full-record fetch per UID. -/
def syncPass (refs : List RecipeItem) (store : String → RecipeFile)
    (fetch : String → Except String Recipe) : SyncPassResult :=
  match refs with
  | [] => ⟨store, 0, false, 0⟩
  | ref :: rest =>
    let o := UpsertRecipe (store ref.uid) ref (fetch ref.uid) true
    let store' := fun u => if u = ref.uid then o.fileAfter else store u
    let r := syncPass rest store' fetch
    ⟨r.store, (if o.fetched then 1 else 0) + r.fetches,
      o.err.isSome || r.hadErr, (if o.saved then 1 else 0) + r.saved⟩

/-- The configuration of a sync run (`SyncCMD`): branch toggles and the
purge grace period (`PurgeAfter`, a `time.Duration`, i.e. a signed
nanosecond count; negative disables purge). -/
structure RunConfig where
  includeCategories : Bool
  includeRecipes : Bool
  purgeAfter : Int
deriving DecidableEq, Repr

/-- How the categories branch can go: the `c.Categories(ctx)` fetch
fails, the fetch succeeds but `saveAsJSON` fails, or both succeed. -/
inductive CategoriesOutcome where
  | fetchErr
  | saveErr
  | ok
deriving DecidableEq, Repr

/-- The external outcomes a run observes: the categories-branch
outcome, the recipe index returned by `SaveRecipesIndex` together with
its error status (the source queues the returned items even when an
error is reported), the initial file states, the per-UID fetch
outcomes, and whether the purge and prune phases succeed when run. -/
structure RunEnv where
  categories : CategoriesOutcome
  indexItems : List RecipeItem
  indexOk : Bool
  store : String → RecipeFile
  fetch : String → Except String Recipe
  purgeOk : Bool
  pruneOk : Bool

/-- The observable result of `SyncCMD.Run` when the process survives
to the join: whether the purge and prune phases were entered, the
recipes-branch result, and whether the run returns the aggregate
`sync completed with errors` error. -/
structure RunResult where
  recipes : SyncPassResult
  purgeRan : Bool
  pruneRan : Bool
  err : Bool

/-- The outcome of a whole run: either the process was terminated by
`os.Exit` before `Run` could return, or `Run` completed with a
result. -/
inductive RunOutcome where
  | exited (code : Nat)
  | completed (r : RunResult)

/-- Embedding of `SaveCategoriesIndex` (sync.go): a categories fetch
error goes through `log.Fatal().Err(err).Msg(...)`, whose zerolog done
hook calls `os.Exit(1)` — the `return err` after it is dead code and
the process terminates (`.error` code).  A `saveAsJSON` failure is
logged with `log.Err` and returned to the caller (`.ok (some _)`),
which sets the aggregate flag; success returns nil. -/
def SaveCategoriesIndex : CategoriesOutcome → Except Nat (Option String)
  | .fetchErr => .error 1
  | .saveErr => .ok (some "error saving Paprika categories index file")
  | .ok => .ok none

/-- Whether the run dies by `os.Exit` during the sync phase: the
categories branch is enabled and its fetch fails (`log.Fatal`). -/
def syncFatal (cfg : RunConfig) (env : RunEnv) : Bool :=
  cfg.includeCategories &&
    (match SaveCategoriesIndex env.categories with
     | .error _ => true
     | .ok _ => false)

/-- Whether the sync phase of a surviving run sets the aggregate error
flag before the purge gate is evaluated (`exitWithErrors` in
`SyncCMD.Run`): a returned categories error, a recipes-index failure,
or any per-item upsert failure. -/
def syncPhaseErr (cfg : RunConfig) (env : RunEnv) : Bool :=
  (cfg.includeCategories &&
    (match SaveCategoriesIndex env.categories with
     | .ok (some _) => true
     | _ => false)) ||
    (cfg.includeRecipes &&
      (!env.indexOk || (syncPass env.indexItems env.store env.fetch).hadErr))

/-- Sequential outcome model of `SyncCMD.Run` (sync.go): a categories
fetch error terminates the process via `log.Fatal`/`os.Exit(1)` before
the join, so nothing further is observed.  Otherwise the categories
and recipes branches each contribute to the error flag; after the
join, purge runs iff no error occurred and `PurgeAfter >= 0`; on purge
success the pruner runs; purge or prune failure flips the flag; the
run errors iff the flag is set. -/
def SyncRun (cfg : RunConfig) (env : RunEnv) : RunOutcome :=
  if syncFatal cfg env then .exited 1
  else
    let recipes :=
      if cfg.includeRecipes then syncPass env.indexItems env.store env.fetch
      else ⟨env.store, 0, false, 0⟩
    let syncErr := syncPhaseErr cfg env
    let purgeRan := !syncErr && decide (0 ≤ cfg.purgeAfter)
    let pruneRan := purgeRan && env.purgeOk
    let finalErr := syncErr || (purgeRan && !env.purgeOk) ||
      (pruneRan && !env.pruneOk)
    .completed ⟨recipes, purgeRan, pruneRan, finalErr⟩

/-- Whether the purge phase was entered in a run outcome: never when
the process exited during sync. -/
def purgeEntered : RunOutcome → Bool
  | .exited _ => false
  | .completed r => r.purgeRan

/-- Whether the prune phase was entered in a run outcome. -/
def pruneEntered : RunOutcome → Bool
  | .exited _ => false
  | .completed r => r.pruneRan

/-- The state of one recipe directory as seen by the purge walk:
whether `recipe.json` is present, and the timestamp (an instant in
nanoseconds) of the `.delete-marker` file when one is present. -/
structure RecipeDir where
  hasRecipe : Bool
  marker : Option Int
deriving DecidableEq, Repr

/-- Per-directory outcome model of the `filepath.WalkDir` callback of
`PurgeUnreferencedRecipes` (sync.go) over one recipe directory.
`indexed` is whether the directory's UID is in the loaded index
snapshot, `purgeAfter` the grace period and `now` the run timestamp
(nanoseconds), `removeAllFails` injects an `os.RemoveAll` failure.
The walk visits `.delete-marker` before `recipe.json` (lexical order);
the source's `filepath.SkipDir` returns end the directory's visit.
Returns `.ok none` when the directory was deleted, `.ok (some d)` with
the directory's new state otherwise, `.error` when the callback
propagates an error.  Note the source logs an `os.RemoveAll` failure
but still returns `filepath.SkipDir`, so that failure is not
propagated. -/
def purgeDir (indexed : Bool) (purgeAfter now : Int) (removeAllFails : Bool)
    (d : RecipeDir) : Except String (Option RecipeDir) :=
  let cutoff := now - purgeAfter
  if indexed then
    match d.marker with
    | some _ => .ok (some { d with marker := none })
    | none => .ok (some d)
  else if purgeAfter = 0 then
    if d.hasRecipe || d.marker.isSome then
      .ok (if removeAllFails then some d else none)
    else .ok (some d)
  else
    match d.marker with
    | some m =>
      if m > cutoff then .ok (some d)
      else .ok (if removeAllFails then some d else none)
    | none =>
      if d.hasRecipe then .ok (some { d with marker := some now })
      else .ok (some d)

/-- A filesystem tree as walked by `PruneFilelessSubtrees`: a regular
file or a directory with a list of entries. -/
inductive FsTree where
  | file (name : String)
  | dir (name : String) (children : List FsTree)
deriving Repr

mutual

/-- The spec's notion: a directory is fileless if every entry in it is
itself a directory and every one of those is recursively fileless; a
regular file is not fileless. -/
def fileless : FsTree → Bool
  | .file _ => false
  | .dir _ cs => filelessList cs

/-- All trees in the list are fileless. -/
def filelessList : List FsTree → Bool
  | [] => true
  | c :: cs => fileless c && filelessList cs

end

mutual

/-- Embedding of the inner recursive `pruneDir` closure of
`PruneFilelessSubtrees` (sync.go): returns `(hasOnlyDirs, subtree
after the call's removals)`.  A non-directory entry contributes
`hasOnlyDirs = false` and is kept; a directory entry is recursively
processed, and when the current directory is not entirely fileless its
fileless children are removed (`os.RemoveAll`) in one batch. -/
def pruneTree : FsTree → Bool × FsTree
  | .file n => (false, .file n)
  | .dir n cs =>
    let rs := pruneList cs
    if rs.all (·.1) then (true, .dir n (rs.map (·.2)))
    else (false, .dir n ((rs.filter (fun r => !r.1)).map (·.2)))

/-- `pruneTree` mapped over a directory's entries in order. -/
def pruneList : List FsTree → List (Bool × FsTree)
  | [] => []
  | c :: cs => pruneTree c :: pruneList cs

end

/-- Embedding of `PruneFilelessSubtrees(ctx, root)` acting on the
entries of the root directory: non-directory entries are skipped
(kept); each directory entry is processed by `pruneDir` and removed
wholesale iff it is entirely fileless.  The root directory itself is
only read, never removed. -/
def PruneFilelessSubtrees (rootChildren : List FsTree) : List FsTree :=
  ((pruneList rootChildren).filter (fun r => !r.1)).map (·.2)

/-- `PruneFilelessSubtrees` at the root directory node: the root
survives with its pruned children. -/
def pruneRootDir : FsTree → FsTree
  | .file n => .file n
  | .dir n cs => .dir n (PruneFilelessSubtrees cs)

mutual

/-- Specification-side pruning: remove, recursively, exactly the
subtrees that are fileless. -/
def removeFilelessSpec : FsTree → FsTree
  | .file n => .file n
  | .dir n cs => .dir n (removeFilelessSpecList cs)

/-- Drop fileless trees from the list and recurse into the rest. -/
def removeFilelessSpecList : List FsTree → List FsTree
  | [] => []
  | c :: cs =>
    if fileless c then removeFilelessSpecList cs
    else removeFilelessSpec c :: removeFilelessSpecList cs

end

/-- A calendar timestamp as carried by a Go `time.Time` at the
granularity the RFC3339-nanosecond layout records: date, time of day,
nanoseconds, and the zone offset in minutes (the layout `Z07:00`
records whole minutes only). -/
structure DateTime where
  year : Nat
  month : Nat
  day : Nat
  hour : Nat
  minute : Nat
  second : Nat
  nanos : Nat
  tz : Int
deriving DecidableEq, Repr

/-- The decimal digit character for `d < 10`. -/
def digitChar : Nat → Char
  | 0 => '0'
  | 1 => '1'
  | 2 => '2'
  | 3 => '3'
  | 4 => '4'
  | 5 => '5'
  | 6 => '6'
  | 7 => '7'
  | 8 => '8'
  | 9 => '9'
  | _ => '*'

/-- The numeric value of a decimal digit character. -/
def digitVal (c : Char) : Nat := c.toNat - 48

/-- `v` written as exactly `w` zero-padded decimal digits (Go
`appendInt(buf, v, w)` for `v < 10^w`), most significant first. -/
def padDigits : Nat → Nat → List Char
  | 0, _ => []
  | w + 1, v => padDigits w (v / 10) ++ [digitChar (v % 10)]

/-- The number denoted by a list of digit characters. -/
def natOfDigits (cs : List Char) : Nat :=
  cs.foldl (fun a c => a * 10 + digitVal c) 0

/-- Remove trailing `'0'` characters. -/
def dropTrailingZeros (cs : List Char) : List Char :=
  (cs.reverse.dropWhile (fun c => c == '0')).reverse

/-- The fractional-second text produced by Go's `fmtFrac` for the
layout element `.999999999`: nine zero-padded digits with the trailing
zeros removed and a leading `'.'`, or nothing at all when every digit
is zero. -/
def fracChars (v : Nat) : List Char :=
  let ds := dropTrailingZeros (padDigits 9 v)
  if ds.isEmpty then [] else '.' :: ds

/-- The zone text produced for the layout element `Z07:00`: `Z` when
the offset is zero, otherwise a sign and the absolute offset as
`hh:mm`. -/
def tzChars (tz : Int) : List Char :=
  if tz = 0 then ['Z']
  else
    let a := tz.natAbs
    (if tz < 0 then '-' else '+') ::
      (padDigits 2 (a / 60) ++ ':' :: padDigits 2 (a % 60))

/-- `t.Format(time.RFC3339Nano)`: the timestamp under the layout
`2006-01-02T15:04:05.999999999Z07:00`. -/
def formatRFC3339Nano (t : DateTime) : List Char :=
  padDigits 4 t.year ++ ('-' :: (padDigits 2 t.month ++ ('-' :: (padDigits 2 t.day ++
    ('T' :: (padDigits 2 t.hour ++ (':' :: (padDigits 2 t.minute ++
      (':' :: (padDigits 2 t.second ++
        (fracChars t.nanos ++ tzChars t.tz)))))))))))

/-- Consume exactly `w` decimal digits, extending the accumulator. -/
def parseFixedAux : Nat → Nat → List Char → Option (Nat × List Char)
  | 0, acc, cs => some (acc, cs)
  | w + 1, acc, c :: cs =>
    if c.isDigit then parseFixedAux w (acc * 10 + digitVal c) cs else none
  | _ + 1, _, [] => none

/-- Consume exactly `w` decimal digits as a number. -/
def parseFixed (w : Nat) (cs : List Char) : Option (Nat × List Char) :=
  parseFixedAux w 0 cs

/-- Consume the expected literal character. -/
def expectChar (c : Char) : List Char → Option (List Char)
  | x :: rest => if x = c then some rest else none
  | [] => none

/-- Parse an optional fractional second for the layout element
`.999999999`: absent unless the text continues with `'.'` followed by
one to nine digits, whose value is scaled to nanoseconds. -/
def parseFrac (cs : List Char) : Option (Nat × List Char) :=
  match cs with
  | c :: rest =>
    if c = '.' then
      let ds := rest.takeWhile (fun c => c.isDigit)
      if ds.length = 0 ∨ 9 < ds.length then none
      else some (natOfDigits ds * 10 ^ (9 - ds.length),
        rest.dropWhile (fun c => c.isDigit))
    else some (0, c :: rest)
  | [] => some (0, [])

/-- Parse the zone for the layout element `Z07:00`: `Z` for offset
zero, otherwise a signed `hh:mm` offset in minutes. -/
def parseOffset (rest : List Char) : Option (Nat × List Char) :=
  (parseFixed 2 rest).bind fun p =>
    match p.2 with
    | c :: cs2 =>
      if c = ':' then
        (parseFixed 2 cs2).map fun q => (p.1 * 60 + q.1, q.2)
      else none
    | [] => none

def parseTZ (cs : List Char) : Option (Int × List Char) :=
  match cs with
  | c :: rest =>
    if c = 'Z' then some (0, rest)
    else if c = '+' then
      (parseOffset rest).map fun p => ((p.1 : Int), p.2)
    else if c = '-' then
      (parseOffset rest).map fun p => (-(p.1 : Int), p.2)
    else none
  | [] => none

/-- Day count of a month in the proleptic Gregorian calendar, as
Go's date validation uses. -/
def daysInMonth (year month : Nat) : Nat :=
  if month = 2 then
    if year % 4 = 0 ∧ (year % 100 ≠ 0 ∨ year % 400 = 0) then 29 else 28
  else if month = 4 ∨ month = 6 ∨ month = 9 ∨ month = 11 then 30
  else 31

/-- `time.Parse(time.RFC3339Nano, s)`: fixed-width date and time
fields separated by the layout's literals, an optional fraction, the
zone, no trailing text, and Go's field range validation. -/
def parseRFC3339Nano (cs : List Char) : Option DateTime :=
  (parseFixed 4 cs).bind fun (y, cs) =>
  (expectChar '-' cs).bind fun cs =>
  (parseFixed 2 cs).bind fun (mo, cs) =>
  (expectChar '-' cs).bind fun cs =>
  (parseFixed 2 cs).bind fun (d, cs) =>
  (expectChar 'T' cs).bind fun cs =>
  (parseFixed 2 cs).bind fun (h, cs) =>
  (expectChar ':' cs).bind fun cs =>
  (parseFixed 2 cs).bind fun (mi, cs) =>
  (expectChar ':' cs).bind fun cs =>
  (parseFixed 2 cs).bind fun (s, cs) =>
  (parseFrac cs).bind fun (ns, cs) =>
  (parseTZ cs).bind fun (tz, cs) =>
  if cs = [] ∧ 1 ≤ mo ∧ mo ≤ 12 ∧ 1 ≤ d ∧ d ≤ daysInMonth y mo ∧
      h ≤ 23 ∧ mi ≤ 59 ∧ s ≤ 59 then
    some ⟨y, mo, d, h, mi, s, ns, tz⟩
  else none

/-- The characters of `time.RFC3339Nano`. -/
def rfc3339NanoLayout : List Char :=
  "2006-01-02T15:04:05.999999999Z07:00".toList

/-- Embedding of `readTimestampMarker(path, layout)` (sync.go): a
single `Read` into a buffer of `len(layout)` bytes captures at most
the first `len(layout)` bytes of the marker body, which are then
parsed with the layout. -/
def readTimestampMarker (body : List Char) : Option DateTime :=
  parseRFC3339Nano (body.take rfc3339NanoLayout.length)

/-- A timestamp the RFC3339-nanosecond layout can express: four-digit
year, valid calendar date and time of day, sub-second nanoseconds, and
a zone offset below one day expressed in whole minutes. -/
def DateTime.valid (t : DateTime) : Prop :=
  t.year ≤ 9999 ∧ 1 ≤ t.month ∧ t.month ≤ 12 ∧ 1 ≤ t.day ∧
    t.day ≤ daysInMonth t.year t.month ∧ t.hour ≤ 23 ∧ t.minute ≤ 59 ∧
    t.second ≤ 59 ∧ t.nanos ≤ 999999999 ∧ t.tz.natAbs ≤ 1439

instance (t : DateTime) : Decidable t.valid := by
  unfold DateTime.valid
  exact inferInstance

/-- Fixture: a store holding, for UID `abcde`, a recipe file whose
stored hash is `h1`; every other path is missing. -/
def storeAbcde : String → RecipeFile := fun u =>
  if u = "abcde" then .decoded ⟨"abcde", "h1", "First"⟩ else .missing

/-- Fixture: a fetch oracle that fails for every UID. -/
def fetchFails : String → Except String Recipe :=
  fun _ => .error "unreachable"

/-- Fixture: a fetch oracle serving the full record for UID `abcde`. -/
def fetchAbcde : String → Except String Recipe := fun u =>
  if u = "abcde" then .ok ⟨"abcde", "h1", "First"⟩ else .error "unknown recipe"

/-- Fixture: a run environment whose categories index file cannot be
written (the returned-error path) and whose index holds the single
reference `abcde`/`h1`. -/
def envCatSaveFail : RunEnv :=
  ⟨.saveErr, [⟨"abcde", "h1"⟩], true, fun _ => .missing, fetchAbcde, true, true⟩

/-- Fixture: a run environment whose categories fetch fails (the
`log.Fatal` path) and whose index holds the single reference
`abcde`/`h1`. -/
def envCatFetchErr : RunEnv :=
  ⟨.fetchErr, [⟨"abcde", "h1"⟩], true, fun _ => .missing, fetchAbcde, true, true⟩

/-! ## Theorems -/

/-- Skipping: when the stored hash equals the reference hash,
`UpsertRecipe` returns `(false, nil)` with no fetch and no write. -/
theorem upsert_skip (r : Recipe) (ref : RecipeItem)
    (fetch : Except String Recipe) (w : Bool) (hh : r.hash = ref.hash) :
    UpsertRecipe (.decoded r) ref fetch w = ⟨false, none, false, .decoded r⟩ := by
  simp [UpsertRecipe, shouldSaveRecipe, hh]

/-- A sync pass over references whose hashes all match the stored
files performs no fetch, reports no error, and leaves every file
unchanged. -/
theorem syncPass_unchanged (refs : List RecipeItem) :
    ∀ (store : String → RecipeFile) (fetch : String → Except String Recipe),
      (∀ ref ∈ refs, ∃ r, store ref.uid = .decoded r ∧ r.hash = ref.hash) →
      (syncPass refs store fetch).fetches = 0 ∧
        (syncPass refs store fetch).hadErr = false ∧
        ∀ u, (syncPass refs store fetch).store u = store u := by
  induction refs with
  | nil => exact fun store fetch _ => ⟨rfl, rfl, fun _ => rfl⟩
  | cons ref rest ih =>
    intro store fetch h
    obtain ⟨r, hst, hh⟩ := h ref (List.mem_cons_self ref rest)
    have hup : UpsertRecipe (store ref.uid) ref (fetch ref.uid) true =
        ⟨false, none, false, store ref.uid⟩ := by
      rw [hst]; exact upsert_skip r ref _ true hh
    have hstore : (fun u => if u = ref.uid then store ref.uid else store u) =
        store := by
      funext u
      by_cases hu : u = ref.uid
      · subst hu; simp
      · simp [hu]
    have hrest := ih store fetch (fun x hx => h x (List.mem_cons_of_mem _ hx))
    simp only [syncPass, hup, hstore]
    exact ⟨by simp [hrest.1], by simp [hrest.2.1], hrest.2.2⟩

/-- C1: `shouldSaveRecipe` realizes the spec's decision table: missing
file → `(true, false)`; undecodable file → `(true, true)`; decodable
with matching stored hash → `(false, true)`; decodable with differing
stored hash → `(true, true)`. -/
theorem shouldSaveRecipe_decision_table :
    (∀ h, shouldSaveRecipe .missing h = (true, false)) ∧
      (∀ h, shouldSaveRecipe .corrupt h = (true, true)) ∧
      (∀ r h, r.hash = h → shouldSaveRecipe (.decoded r) h = (false, true)) ∧
      (∀ r h, r.hash ≠ h → shouldSaveRecipe (.decoded r) h = (true, true)) := by
  refine ⟨fun _ => rfl, fun _ => rfl, ?_, ?_⟩ <;>
    · intro r h hh
      simp [shouldSaveRecipe, hh]

/-- Witness for C1 at concrete inputs. -/
theorem shouldSaveRecipe_decision_table_witness :
    shouldSaveRecipe (.decoded ⟨"u", "h1", "n"⟩) "h1" = (false, true) ∧
      shouldSaveRecipe (.decoded ⟨"u", "h1", "n"⟩) "h2" = (true, true) :=
  ⟨shouldSaveRecipe_decision_table.2.2.1 ⟨"u", "h1", "n"⟩ "h1" rfl,
    shouldSaveRecipe_decision_table.2.2.2 ⟨"u", "h1", "n"⟩ "h2" (by decide)⟩

/-- C2: when the reference hash equals the stored hash,
`UpsertRecipe` returns `(false, nil)` with no full-record fetch and
the file unchanged; consequently a sync pass against an unchanged
index performs zero fetches, reports no error, and leaves every
recipe file identical. -/
theorem upsert_unchanged_skips_fetch :
    (∀ (r : Recipe) (ref : RecipeItem) (fetch : Except String Recipe) (w : Bool),
        r.hash = ref.hash →
        UpsertRecipe (.decoded r) ref fetch w = ⟨false, none, false, .decoded r⟩) ∧
      (∀ (refs : List RecipeItem) (store : String → RecipeFile)
          (fetch : String → Except String Recipe),
        (∀ ref ∈ refs, ∃ r, store ref.uid = .decoded r ∧ r.hash = ref.hash) →
        (syncPass refs store fetch).fetches = 0 ∧
          (syncPass refs store fetch).hadErr = false ∧
          ∀ u, (syncPass refs store fetch).store u = store u) :=
  ⟨fun r ref fetch w hh => upsert_skip r ref fetch w hh,
    fun refs store fetch h => syncPass_unchanged refs store fetch h⟩

/-- Witness for C2: one reference whose hash matches the stored file.
The pass fetches nothing, errs nowhere, and keeps the file. -/
theorem upsert_unchanged_skips_fetch_witness :
    (UpsertRecipe (.decoded ⟨"abcde", "h1", "First"⟩) ⟨"abcde", "h1"⟩
        (.error "e") true =
      ⟨false, none, false, .decoded ⟨"abcde", "h1", "First"⟩⟩) ∧
      (syncPass [⟨"abcde", "h1"⟩] storeAbcde fetchFails).fetches = 0 ∧
      (syncPass [⟨"abcde", "h1"⟩] storeAbcde fetchFails).hadErr = false ∧
      (syncPass [⟨"abcde", "h1"⟩] storeAbcde fetchFails).store "abcde" =
        storeAbcde "abcde" := by
  have h2 := upsert_unchanged_skips_fetch.2 [⟨"abcde", "h1"⟩] storeAbcde fetchFails
    (by
      intro ref hr
      simp only [List.mem_singleton] at hr
      subst hr
      exact ⟨⟨"abcde", "h1", "First"⟩, rfl, rfl⟩)
  exact ⟨upsert_unchanged_skips_fetch.1 ⟨"abcde", "h1", "First"⟩ ⟨"abcde", "h1"⟩
      (.error "e") true rfl,
    h2.1, h2.2.1, h2.2.2 "abcde"⟩

/-- C4: once the decision phase requires an update and the fetch
succeeds, the fetched record is written iff its UID equals the
requested UID (with the write succeeding): a hash mismatch never
blocks the write, while a UID mismatch yields an error and no write. -/
theorem upsert_uid_gate (file : RecipeFile) (ref : RecipeItem) (recipe : Recipe)
    (hupd : (shouldSaveRecipe file ref.hash).1 = true) :
    (recipe.uid = ref.uid →
        UpsertRecipe file ref (.ok recipe) true = ⟨true, none, true, .decoded recipe⟩) ∧
      (recipe.uid ≠ ref.uid → ∀ w,
        UpsertRecipe file ref (.ok recipe) w =
          ⟨false, some "fetched recipe UID does not match requested UID", true, file⟩) := by
  rcases hsv : shouldSaveRecipe file ref.hash with ⟨u, e⟩
  rw [hsv] at hupd
  simp only at hupd
  subst hupd
  constructor
  · intro huid
    simp [UpsertRecipe, hsv, huid]
  · intro huid w
    simp [UpsertRecipe, hsv, huid]

/-- Witness for C4: a hash-mismatched fetch is written; a
UID-mismatched fetch is rejected without a write. -/
theorem upsert_uid_gate_witness :
    (UpsertRecipe .missing ⟨"abcde", "h1"⟩ (.ok ⟨"abcde", "h2", "x"⟩) true =
        ⟨true, none, true, .decoded ⟨"abcde", "h2", "x"⟩⟩) ∧
      (UpsertRecipe .missing ⟨"badid", "h1"⟩ (.ok ⟨"other", "h1", "x"⟩) true =
        ⟨false, some "fetched recipe UID does not match requested UID", true,
          .missing⟩) :=
  ⟨(upsert_uid_gate .missing ⟨"abcde", "h1"⟩ ⟨"abcde", "h2", "x"⟩ rfl).1 rfl,
    (upsert_uid_gate .missing ⟨"badid", "h1"⟩ ⟨"other", "h1", "x"⟩ rfl).2
      (by decide) true⟩

/-- C5: the purge phase of a run is entered iff the sync phase set no
error flag and the grace period is nonnegative; any sync-phase error
suppresses both the purge and the prune phases. -/
theorem run_purge_gate (cfg : RunConfig) (env : RunEnv) :
    (purgeEntered (SyncRun cfg env) = true ↔
        (syncFatal cfg env = false ∧ syncPhaseErr cfg env = false ∧
          0 ≤ cfg.purgeAfter)) ∧
      (syncFatal cfg env = true ∨ syncPhaseErr cfg env = true →
        purgeEntered (SyncRun cfg env) = false ∧
          pruneEntered (SyncRun cfg env) = false) := by
  by_cases hfat : syncFatal cfg env = true
  · simp [SyncRun, hfat, purgeEntered, pruneEntered]
  · simp only [Bool.not_eq_true] at hfat
    constructor
    · simp [SyncRun, hfat, purgeEntered]
    · intro herr
      rcases herr with herr | herr
      · exact absurd herr (by simp [hfat])
      · simp [SyncRun, hfat, herr, purgeEntered, pruneEntered]

/-- Witness for C5: with a categories branch that fails on the
returned-error path, purge and prune do not run even though the grace
period is zero (purge enabled). -/
theorem run_purge_gate_witness :
    purgeEntered (SyncRun ⟨true, false, 0⟩ envCatSaveFail) = false ∧
      pruneEntered (SyncRun ⟨true, false, 0⟩ envCatSaveFail) = false :=
  (run_purge_gate ⟨true, false, 0⟩ envCatSaveFail).2 (Or.inr rfl)

/-- C6: for a recipe directory whose UID is in the index snapshot,
the purge pass removes any deletion marker and does nothing else: the
directory survives with the same recipe data and no marker. -/
theorem purge_indexed_removes_marker (purgeAfter now : Int)
    (removeAllFails : Bool) (d : RecipeDir) :
    purgeDir true purgeAfter now removeAllFails d =
      .ok (some { d with marker := none }) := by
  cases d with
  | mk hasRecipe marker => cases marker <;> simp [purgeDir]

/-- C9 (evaluation at the failing input): with both branches enabled
and the categories fetch failing, the modelled run terminates by
`os.Exit(1)` — the `log.Fatal` done hook fires before the join, so the
process aborts, the recipes branch is cut short, and the run never
returns the aggregate `sync completed with errors` result. -/
theorem run_categories_fetch_error_exits :
    SyncRun ⟨true, true, 3600⟩ envCatFetchErr = .exited 1 := rfl

/-- C8 (evaluation at the failing input): when `os.RemoveAll` fails
while purging an unindexed recipe directory whose marker is expired,
the walk callback still reports success — the failure is logged but
not propagated, so the run's aggregate error flag is not flipped. -/
theorem purge_removeAll_error_swallowed :
    purgeDir false 24 100 true ⟨true, some 0⟩ = .ok (some ⟨true, some 0⟩) := rfl

/-- C3 counterexample: with grace period 2, now 2 and marker stamped
at 0, the marker's age equals the grace period, which does not exceed
it — yet the code deletes the directory (the cutoff comparison is
`marker.After(cutoff)`, so equality purges). -/
theorem purge_cutoff_boundary_counterexample :
    ¬ ((2 : Int) - 0 > 2) ∧
      purgeDir false 2 2 false ⟨true, some 0⟩ = .ok none :=
  ⟨by decide, rfl⟩

/-- C3 (amended): with a positive grace period, a directory whose UID
is absent from the index and that carries a marker is deleted iff the
marker's age is at least the grace period (the marker is not after the
cutoff), and is left untouched iff the age is below it; in particular
age `grace − 1` is retained and age `grace + 1` is deleted. -/
theorem purge_cutoff_boundary (g now m : Int) (hr : Bool) (hg : 0 < g) :
    (purgeDir false g now false ⟨hr, some m⟩ = .ok none ↔ g ≤ now - m) ∧
      (now - m < g →
        purgeDir false g now false ⟨hr, some m⟩ = .ok (some ⟨hr, some m⟩)) ∧
      (now - m = g - 1 →
        purgeDir false g now false ⟨hr, some m⟩ = .ok (some ⟨hr, some m⟩)) ∧
      (now - m = g + 1 → purgeDir false g now false ⟨hr, some m⟩ = .ok none) := by
  have hg0 : ¬ (g = 0) := by omega
  by_cases hm : m > now - g
  · simp only [purgeDir, hg0, if_neg, if_pos hm]
    refine ⟨?_, fun _ => rfl, fun _ => rfl, fun hage => by omega⟩
    constructor
    · intro hcontra
      exact absurd hcontra (by simp)
    · intro hle
      omega
  · simp only [purgeDir, hg0, if_neg, if_pos, if_neg hm]
    refine ⟨⟨fun _ => by omega, fun _ => rfl⟩, fun hlt => by omega,
      fun hage => by omega, fun _ => rfl⟩

/-- Witness for C3 (amended): grace 24, marker aged 50 → deleted;
marker aged 23 → retained. -/
theorem purge_cutoff_boundary_witness :
    purgeDir false 24 100 false ⟨true, some 50⟩ = .ok none ∧
      purgeDir false 24 100 false ⟨true, some 77⟩ =
        .ok (some ⟨true, some 77⟩) :=
  ⟨(purge_cutoff_boundary 24 100 50 true (by decide)).1.mpr (by decide),
    (purge_cutoff_boundary 24 100 77 true (by decide)).2.1 (by decide)⟩

/-- `filelessList` is `List.all fileless`. -/
theorem filelessList_eq_all (cs : List FsTree) : filelessList cs = cs.all fileless := by
  induction cs with
  | nil => rfl
  | cons c cs ih => simp [filelessList, ih]

/-- Filtering out the fileless entries of the processed pair list and
keeping the processed subtrees is the specification-side removal. -/
theorem prunePairs_spec (cs : List FsTree) :
    (((cs.map fun c =>
        (fileless c, if fileless c then c else removeFilelessSpec c)).filter
          (fun r => !r.1)).map (·.2)) = removeFilelessSpecList cs := by
  induction cs with
  | nil => rfl
  | cons c cs ih =>
    by_cases hc : fileless c = true
    · simp [hc, removeFilelessSpecList, ih]
    · simp only [Bool.not_eq_true] at hc
      simp [hc, removeFilelessSpecList, ih]

mutual

/-- The code's `pruneDir` computes exactly the spec's `fileless`
predicate, and returns the subtree intact when it is fileless and
with exactly its fileless children removed otherwise. -/
theorem pruneTree_eq : ∀ t : FsTree,
    pruneTree t = (fileless t, if fileless t then t else removeFilelessSpec t)
  | .file n => by simp [pruneTree, fileless, removeFilelessSpec]
  | .dir n cs => by
    have h := pruneList_eq cs
    have hall : ∀ ds : List FsTree, ((ds.map fun c =>
        (fileless c, if fileless c then c else removeFilelessSpec c)).all
          (·.1)) = filelessList ds := by
      intro ds
      induction ds with
      | nil => rfl
      | cons d ds ih => simp [filelessList, List.all_cons, ih]
    by_cases hcs : filelessList cs = true
    · have hmem : ∀ c ∈ cs, fileless c = true := by
        rw [filelessList_eq_all, List.all_eq_true] at hcs
        exact hcs
      have hkeep : ((cs.map fun c =>
          (fileless c, if fileless c then c else removeFilelessSpec c)).map
            (·.2)) = cs := by
        rw [List.map_map]
        calc cs.map ((fun r : Bool × FsTree => r.2) ∘ fun c =>
              (fileless c, if fileless c then c else removeFilelessSpec c)) =
            cs.map id :=
            List.map_congr_left fun c hc => by simp [Function.comp, hmem c hc]
          _ = cs := List.map_id cs
      simp only [pruneTree, h, hall, hcs, if_pos, fileless]
      simp [hkeep]
    · have hcs' : filelessList cs = false := by
        cases hfl : filelessList cs
        · rfl
        · exact absurd hfl hcs
      simp only [pruneTree, h, hall, hcs', fileless, removeFilelessSpec]
      simp [prunePairs_spec cs]

/-- `pruneList` maps `pruneTree` over the list. -/
theorem pruneList_eq : ∀ cs : List FsTree,
    pruneList cs = cs.map fun c =>
      (fileless c, if fileless c then c else removeFilelessSpec c)
  | [] => rfl
  | c :: cs => by
    have h1 := pruneTree_eq c
    have h2 := pruneList_eq cs
    simp [pruneList, h1, h2]

end

/-- C7: `PruneFilelessSubtrees` removes exactly the fileless
descendant subtrees — the surviving tree is the original with every
fileless subtree dropped, recursively — and the supplied root
directory itself always survives, even when all of its children are
fileless. -/
theorem prune_removes_exactly_fileless :
    (∀ (n : String) (cs : List FsTree),
        pruneRootDir (.dir n cs) = .dir n (removeFilelessSpecList cs)) ∧
      ∀ cs : List FsTree, PruneFilelessSubtrees cs = removeFilelessSpecList cs := by
  have hsub : ∀ cs : List FsTree,
      PruneFilelessSubtrees cs = removeFilelessSpecList cs := by
    intro cs
    unfold PruneFilelessSubtrees
    rw [pruneList_eq]
    exact prunePairs_spec cs
  exact ⟨fun n cs => by simp [pruneRootDir, hsub cs], hsub⟩

theorem digitChar_isDigit {d : Nat} (h : d < 10) :
    (digitChar d).isDigit = true := by
  interval_cases d <;> decide

theorem digitVal_digitChar {d : Nat} (h : d < 10) :
    digitVal (digitChar d) = d := by
  interval_cases d <;> decide

theorem digitChar_ne_zero {d : Nat} (h : d < 10) (h0 : 0 < d) :
    digitChar d ≠ '0' := by
  interval_cases d <;> first | omega | decide

theorem padDigits_length : ∀ w v : Nat, (padDigits w v).length = w
  | 0, _ => rfl
  | w + 1, v => by simp [padDigits, padDigits_length w (v / 10)]

theorem padDigits_all_digit : ∀ (w v : Nat), ∀ c ∈ padDigits w v,
    c.isDigit = true
  | 0, _ => by simp [padDigits]
  | w + 1, v => by
    intro c hc
    simp only [padDigits, List.mem_append, List.mem_singleton] at hc
    rcases hc with hc | hc
    · exact padDigits_all_digit w (v / 10) c hc
    · subst hc; exact digitChar_isDigit (Nat.mod_lt v (by omega))

theorem parseFixedAux_add : ∀ (w1 w2 acc : Nat) (cs : List Char),
    parseFixedAux (w1 + w2) acc cs =
      (parseFixedAux w1 acc cs).bind fun p => parseFixedAux w2 p.1 p.2
  | 0, w2, acc, cs => by rw [Nat.zero_add]; simp [parseFixedAux]
  | w1 + 1, w2, acc, [] => by
    have he : w1 + 1 + w2 = (w1 + w2) + 1 := by omega
    rw [he]; simp [parseFixedAux]
  | w1 + 1, w2, acc, c :: cs => by
    have he : w1 + 1 + w2 = (w1 + w2) + 1 := by omega
    rw [he]
    by_cases hc : c.isDigit
    · simp [parseFixedAux, hc,
        parseFixedAux_add w1 w2 (acc * 10 + digitVal c) cs]
    · simp [parseFixedAux, hc]

theorem parseFixedAux_pad : ∀ (w v acc : Nat) (rest : List Char), v < 10 ^ w →
    parseFixedAux w acc (padDigits w v ++ rest) = some (acc * 10 ^ w + v, rest)
  | 0, v, acc, rest, hv => by
    have h1 : (10 : Nat) ^ 0 = 1 := pow_zero 10
    have hv0 : v = 0 := by omega
    subst hv0
    simp [padDigits, parseFixedAux]
  | w + 1, v, acc, rest, hv => by
    have hshape : padDigits (w + 1) v ++ rest =
        padDigits w (v / 10) ++ (digitChar (v % 10) :: rest) := by
      simp [padDigits]
    have h10 : (10 : Nat) ^ (w + 1) = 10 ^ w * 10 := pow_succ 10 w
    have hdiv : v / 10 < 10 ^ w := by omega
    rw [hshape, parseFixedAux_add w 1 acc _,
      parseFixedAux_pad w (v / 10) acc _ hdiv]
    have hd : (digitChar (v % 10)).isDigit = true :=
      digitChar_isDigit (Nat.mod_lt v (by omega))
    simp [parseFixedAux, hd, digitVal_digitChar (Nat.mod_lt v (by omega))]
    calc (acc * 10 ^ w + v / 10) * 10 + v % 10 =
        acc * (10 ^ w * 10) + (v / 10 * 10 + v % 10) := by ring
      _ = acc * 10 ^ (w + 1) + v := by rw [← h10]; omega

theorem parseFixed_pad {w v : Nat} (rest : List Char) (hv : v < 10 ^ w) :
    parseFixed w (padDigits w v ++ rest) = some (v, rest) := by
  unfold parseFixed
  rw [parseFixedAux_pad w v 0 rest hv]
  simp

theorem foldl_digits_pad : ∀ (w v acc : Nat), v < 10 ^ w →
    (padDigits w v).foldl (fun a c => a * 10 + digitVal c) acc =
      acc * 10 ^ w + v
  | 0, v, acc, hv => by
    have h1 : (10 : Nat) ^ 0 = 1 := pow_zero 10
    have hv0 : v = 0 := by omega
    subst hv0
    simp [padDigits]
  | w + 1, v, acc, hv => by
    have h10 : (10 : Nat) ^ (w + 1) = 10 ^ w * 10 := pow_succ 10 w
    have hdiv : v / 10 < 10 ^ w := by omega
    simp only [padDigits, List.foldl_append, List.foldl_cons, List.foldl_nil]
    rw [foldl_digits_pad w (v / 10) acc hdiv,
      digitVal_digitChar (Nat.mod_lt v (by omega))]
    calc (acc * 10 ^ w + v / 10) * 10 + v % 10 =
        acc * (10 ^ w * 10) + (v / 10 * 10 + v % 10) := by ring
      _ = acc * 10 ^ (w + 1) + v := by rw [← h10]; omega

theorem natOfDigits_pad {w v : Nat} (hv : v < 10 ^ w) :
    natOfDigits (padDigits w v) = v := by
  unfold natOfDigits
  rw [foldl_digits_pad w v 0 hv]
  simp

theorem natOfDigits_append_digit (xs : List Char) (c : Char) :
    natOfDigits (xs ++ [c]) = natOfDigits xs * 10 + digitVal c := by
  unfold natOfDigits
  rw [List.foldl_append]
  rfl

theorem dropTrailingZeros_append (xs : List Char) (c : Char) :
    dropTrailingZeros (xs ++ [c]) =
      if c = '0' then dropTrailingZeros xs else xs ++ [c] := by
  unfold dropTrailingZeros
  rw [List.reverse_append]
  by_cases hc : c = '0'
  · have hb : (c == '0') = true := by simp [hc]
    simp [List.dropWhile_cons, hb, hc]
  · have hb : (c == '0') = false := by simp [hc]
    simp [List.dropWhile_cons, hb, hc]

theorem mem_dropTrailingZeros {c : Char} {cs : List Char}
    (h : c ∈ dropTrailingZeros cs) : c ∈ cs := by
  unfold dropTrailingZeros at h
  rw [List.mem_reverse] at h
  rw [← List.mem_reverse]
  exact (List.dropWhile_sublist _).subset h

theorem frac_value : ∀ v : Nat, ∀ w : Nat, v < 10 ^ w →
    (dropTrailingZeros (padDigits w v)).length ≤ w ∧
      natOfDigits (dropTrailingZeros (padDigits w v)) *
        10 ^ (w - (dropTrailingZeros (padDigits w v)).length) = v := by
  intro v w
  induction w generalizing v with
  | zero =>
    intro hv
    have h1 : (10 : Nat) ^ 0 = 1 := pow_zero 10
    have hv0 : v = 0 := by omega
    subst hv0
    exact ⟨le_refl 0, rfl⟩
  | succ w ih =>
    intro hv
    have h10 : (10 : Nat) ^ (w + 1) = 10 ^ w * 10 := pow_succ 10 w
    have hdiv : v / 10 < 10 ^ w := by omega
    obtain ⟨ihlen, ihval⟩ := ih (v / 10) hdiv
    have hpad : padDigits (w + 1) v =
        padDigits w (v / 10) ++ [digitChar (v % 10)] := rfl
    by_cases hz : v % 10 = 0
    · have hdc : digitChar (v % 10) = '0' := by rw [hz]; rfl
      have hstep : dropTrailingZeros (padDigits (w + 1) v) =
          dropTrailingZeros (padDigits w (v / 10)) := by
        rw [hpad, dropTrailingZeros_append, if_pos hdc]
      rw [hstep]
      refine ⟨by omega, ?_⟩
      have hsub : w + 1 - (dropTrailingZeros (padDigits w (v / 10))).length =
          (w - (dropTrailingZeros (padDigits w (v / 10))).length) + 1 := by
        omega
      rw [hsub, pow_succ, ← Nat.mul_assoc, ihval]
      omega
    · have hd10 : v % 10 < 10 := Nat.mod_lt v (by omega)
      have hdc : digitChar (v % 10) ≠ '0' :=
        digitChar_ne_zero hd10 (by omega)
      have hstep : dropTrailingZeros (padDigits (w + 1) v) =
          padDigits w (v / 10) ++ [digitChar (v % 10)] := by
        rw [hpad, dropTrailingZeros_append, if_neg hdc]
      rw [hstep]
      have hlen : (padDigits w (v / 10) ++ [digitChar (v % 10)]).length =
          w + 1 := by
        simp [padDigits_length]
      refine ⟨by omega, ?_⟩
      rw [natOfDigits_append_digit, natOfDigits_pad hdiv,
        digitVal_digitChar hd10, hlen, Nat.sub_self, pow_zero, Nat.mul_one]
      omega

theorem takeWhile_append_cons (p : Char → Bool) :
    ∀ (xs : List Char) (y : Char) (ys : List Char),
      (∀ c ∈ xs, p c = true) → p y = false →
      (xs ++ y :: ys).takeWhile p = xs ∧ (xs ++ y :: ys).dropWhile p = y :: ys
  | [], y, ys, _, hy => by
    simp [List.takeWhile_cons, List.dropWhile_cons, hy]
  | x :: xs, y, ys, hall, hy => by
    have hx : p x = true := hall x (List.mem_cons_self x xs)
    have ih := takeWhile_append_cons p xs y ys
      (fun c hc => hall c (List.mem_cons_of_mem _ hc)) hy
    simp [List.takeWhile_cons, List.dropWhile_cons, hx, ih.1, ih.2]

theorem parseFrac_fracChars {v : Nat} (hv : v < 10 ^ 9) {y : Char}
    (ys : List Char) (hy : y.isDigit = false) (hdot : y ≠ '.') :
    parseFrac (fracChars v ++ y :: ys) = some (v, y :: ys) := by
  by_cases h0 : v = 0
  · subst h0
    have hfc : fracChars 0 = [] := rfl
    rw [hfc, List.nil_append]
    simp [parseFrac, hdot]
  · obtain ⟨hlen, hval⟩ := frac_value v 9 hv
    have hne : dropTrailingZeros (padDigits 9 v) ≠ [] := by
      intro h
      rw [h] at hval
      simp [natOfDigits] at hval
      exact h0 hval.symm
    have hfc : fracChars v = '.' :: dropTrailingZeros (padDigits 9 v) := by
      unfold fracChars
      simp [List.isEmpty_iff, hne]
    rw [hfc]
    have hall : ∀ c ∈ dropTrailingZeros (padDigits 9 v), c.isDigit = true :=
      fun c hc => padDigits_all_digit 9 v c (mem_dropTrailingZeros hc)
    have htake := takeWhile_append_cons (fun c => c.isDigit)
      (dropTrailingZeros (padDigits 9 v)) y ys hall hy
    have hlen0 : (dropTrailingZeros (padDigits 9 v)).length ≠ 0 := by
      simpa [List.length_eq_zero] using hne
    simp only [parseFrac, List.cons_append, if_true]
    rw [htake.1, htake.2]
    rw [if_neg (by omega)]
    rw [hval]

theorem parseOffset_pad {a : Nat} (rest : List Char) (ha : a ≤ 1439) :
    parseOffset (padDigits 2 (a / 60) ++ ':' ::
      (padDigits 2 (a % 60) ++ rest)) = some (a, rest) := by
  have h100 : (10 : Nat) ^ 2 = 100 := by norm_num
  have hdiv : a / 60 < 10 ^ 2 := by omega
  have hmod : a % 60 < 10 ^ 2 := by omega
  unfold parseOffset
  rw [parseFixed_pad _ hdiv]
  simp only [Option.some_bind, if_true]
  rw [parseFixed_pad rest hmod]
  simp only [Option.map_some', Option.some.injEq, Prod.mk.injEq]
  exact ⟨by omega, trivial⟩

theorem parseTZ_tzChars {tz : Int} (rest : List Char)
    (ha : tz.natAbs ≤ 1439) :
    parseTZ (tzChars tz ++ rest) = some (tz, rest) := by
  by_cases h0 : tz = 0
  · subst h0
    simp [tzChars, parseTZ]
  · by_cases hneg : tz < 0
    · have hshape : tzChars tz ++ rest = '-' ::
          (padDigits 2 (tz.natAbs / 60) ++ ':' ::
            (padDigits 2 (tz.natAbs % 60) ++ rest)) := by
        simp [tzChars, h0, hneg]
      rw [hshape]
      simp only [parseTZ, if_neg (by decide : ('-' : Char) ≠ 'Z'),
        if_neg (by decide : ('-' : Char) ≠ '+'), if_true]
      rw [parseOffset_pad rest ha]
      simp only [Option.map_some', Option.some.injEq, Prod.mk.injEq]
      exact ⟨by omega, trivial⟩
    · have hpos : 0 < tz := by omega
      have hshape : tzChars tz ++ rest = '+' ::
          (padDigits 2 (tz.natAbs / 60) ++ ':' ::
            (padDigits 2 (tz.natAbs % 60) ++ rest)) := by
        simp [tzChars, h0, hneg]
      rw [hshape]
      simp only [parseTZ, if_neg (by decide : ('+' : Char) ≠ 'Z'), if_true]
      rw [parseOffset_pad rest ha]
      simp only [Option.map_some', Option.some.injEq, Prod.mk.injEq]
      exact ⟨by omega, trivial⟩

theorem expectChar_self (c : Char) (rest : List Char) :
    expectChar c (c :: rest) = some rest := by
  simp [expectChar]

theorem tzChars_head (tz : Int) :
    ∃ y ys, tzChars tz = y :: ys ∧ y.isDigit = false ∧ y ≠ '.' := by
  by_cases h0 : tz = 0
  · exact ⟨'Z', [], by simp [tzChars, h0], by decide, by decide⟩
  · by_cases hneg : tz < 0
    · exact ⟨'-', padDigits 2 (tz.natAbs / 60) ++ ':' :: padDigits 2 (tz.natAbs % 60),
        by simp [tzChars, h0, hneg], by decide, by decide⟩
    · exact ⟨'+', padDigits 2 (tz.natAbs / 60) ++ ':' :: padDigits 2 (tz.natAbs % 60),
        by simp [tzChars, h0, hneg], by decide, by decide⟩

theorem tzChars_length (tz : Int) : (tzChars tz).length ≤ 6 := by
  by_cases h0 : tz = 0
  · simp [tzChars, h0]
  · by_cases hneg : tz < 0 <;>
      simp [tzChars, h0, hneg, padDigits_length]

theorem fracChars_length {v : Nat} (hv : v < 10 ^ 9) :
    (fracChars v).length ≤ 10 := by
  have hlen := (frac_value v 9 hv).1
  unfold fracChars
  by_cases he : (dropTrailingZeros (padDigits 9 v)).isEmpty
  · simp [he]
  · simp only [he, Bool.false_eq_true, if_false, List.length_cons]
    omega

theorem formatRFC3339Nano_length {t : DateTime} (h : t.valid) :
    (formatRFC3339Nano t).length ≤ 35 := by
  have hns : t.nanos < 10 ^ 9 := by
    have h9 : (10 : Nat) ^ 9 = 1000000000 := by norm_num
    have := h.2.2.2.2.2.2.2.2.1
    omega
  have hfrac := fracChars_length hns
  have htz := tzChars_length t.tz
  simp only [formatRFC3339Nano, List.length_append, List.length_cons,
    padDigits_length]
  omega

set_option maxHeartbeats 1000000 in
theorem parseRFC3339Nano_format {t : DateTime} (h : t.valid) :
    parseRFC3339Nano (formatRFC3339Nano t) = some t := by
  obtain ⟨year, month, day, hour, minute, second, nanos, tz⟩ := t
  obtain ⟨hy, hmo1, hmo2, hd1, hd2, hh, hmi, hs, hns, htz⟩ := h
  simp only at hy hmo1 hmo2 hd1 hd2 hh hmi hs hns htz
  have h4 : (10 : Nat) ^ 4 = 10000 := by norm_num
  have h2 : (10 : Nat) ^ 2 = 100 := by norm_num
  have h9 : (10 : Nat) ^ 9 = 1000000000 := by norm_num
  have hy' : year < 10 ^ 4 := by omega
  have hmo' : month < 10 ^ 2 := by omega
  have hd' : day < 10 ^ 2 := by
    have hdm : daysInMonth year month ≤ 31 := by
      unfold daysInMonth
      split
      · split <;> omega
      · split <;> omega
    omega
  have hh' : hour < 10 ^ 2 := by omega
  have hmi' : minute < 10 ^ 2 := by omega
  have hs' : second < 10 ^ 2 := by omega
  have hns' : nanos < 10 ^ 9 := by omega
  obtain ⟨yc, ys, htzc, hyd, hydot⟩ := tzChars_head tz
  have hptz : parseTZ (tzChars tz) = some (tz, []) := by
    have hz := @parseTZ_tzChars tz [] htz
    rwa [List.append_nil] at hz
  have hpfrac : parseFrac (fracChars nanos ++ tzChars tz) =
      some (nanos, tzChars tz) := by
    rw [htzc]
    exact parseFrac_fracChars hns' ys hyd hydot
  simp only [formatRFC3339Nano, parseRFC3339Nano]
  rw [parseFixed_pad _ hy']
  simp only [Option.some_bind]
  rw [expectChar_self]
  simp only [Option.some_bind]
  rw [parseFixed_pad _ hmo']
  simp only [Option.some_bind]
  rw [expectChar_self]
  simp only [Option.some_bind]
  rw [parseFixed_pad _ hd']
  simp only [Option.some_bind]
  rw [expectChar_self]
  simp only [Option.some_bind]
  rw [parseFixed_pad _ hh']
  simp only [Option.some_bind]
  rw [expectChar_self]
  simp only [Option.some_bind]
  rw [parseFixed_pad _ hmi']
  simp only [Option.some_bind]
  rw [expectChar_self]
  simp only [Option.some_bind]
  rw [parseFixed_pad _ hs']
  simp only [Option.some_bind]
  rw [hpfrac]
  simp only [Option.some_bind]
  rw [hptz]
  simp only [Option.some_bind]
  rw [if_pos ⟨trivial, hmo1, hmo2, hd1, hd2, hh, hmi, hs⟩]

/-- C10: marker timestamps round-trip — for every timestamp the
RFC3339-nanosecond layout can express, the formatted text is no longer
than the layout (so `readTimestampMarker`'s fixed-size buffer captures
the whole body) and reading the marker back yields the same
timestamp. -/
theorem marker_timestamp_roundtrip (t : DateTime) (h : t.valid) :
    (formatRFC3339Nano t).length ≤ rfc3339NanoLayout.length ∧
      readTimestampMarker (formatRFC3339Nano t) = some t := by
  have hlay : rfc3339NanoLayout.length = 35 := rfl
  have hlen := formatRFC3339Nano_length h
  refine ⟨by omega, ?_⟩
  unfold readTimestampMarker
  rw [List.take_of_length_le (by omega)]
  exact parseRFC3339Nano_format h

/-- Witness for C10 at the timestamp of the repository's
`TestReadTimestampMarker` (2023-05-06T07:08:09Z). -/
theorem marker_timestamp_roundtrip_witness :
    DateTime.valid ⟨2023, 5, 6, 7, 8, 9, 0, 0⟩ ∧
      (formatRFC3339Nano ⟨2023, 5, 6, 7, 8, 9, 0, 0⟩).length ≤
        rfc3339NanoLayout.length ∧
      readTimestampMarker (formatRFC3339Nano ⟨2023, 5, 6, 7, 8, 9, 0, 0⟩) =
        some ⟨2023, 5, 6, 7, 8, 9, 0, 0⟩ :=
  ⟨by decide,
    marker_timestamp_roundtrip ⟨2023, 5, 6, 7, 8, 9, 0, 0⟩ (by decide)⟩

end Paprika
